import Mathlib

/-!
Verification development for the depth post-processing pipeline of the
VDA_inpainting repository.

The pipeline of `process_depth_npz.py` is embedded shallowly:
* depth values are modelled as rationals (`ℚ`) for the normalization,
  statistics and frame-count reconciliation stages, whose arithmetic is
  exact on rationals;
* the transform stage (Gaussian blur + logarithmic compression) is embedded
  over `ℝ`, with the external `scipy.ndimage.gaussian_filter` call modelled
  as an opaque frame-to-frame function parameter;
* the scene aggregation of `create_depth_npz.py` is embedded with the
  filesystem/ffprobe probing of each scene abstracted into a sum type
  describing what the script finds for that scene.

A depth array is a list of frames; a frame is a list of rows of pixels.
-/

attribute [local semireducible] Rat.add Rat.mul Rat.inv Rat.sub

namespace VDA

/-- A floating-point depth frame (2D matrix), modelled with rational entries. -/
abbrev Frame := List (List ℚ)

/-- An 8-bit output frame (`np.uint8`), entries are naturals in `[0, 255]`. -/
abbrev Frame8 := List (List ℕ)

/-- Python `int()` applied to a float: truncation toward zero. -/
def pyInt (q : ℚ) : ℤ := if q < 0 then ⌈q⌉ else ⌊q⌋

/-- `max(0, min(i, num_frames))` — the index clamping used for scene
boundaries in `process_depth_npz` (lines 122-123 and 158-159). -/
def clampIdx (i : ℤ) (n : ℕ) : ℕ := (max 0 (min i (n : ℤ))).toNat

/-- All pixel values of one frame (row-major flattening). -/
def frameValues (f : Frame) : List ℚ := f.flatten

/-- All pixel values of a stack of frames, as flattened by `np.min`/`np.max`
over a 3D slice. -/
def sceneValues (fs : List Frame) : List ℚ := (fs.map frameValues).flatten

/-- `np.min` over a flattened value list (0 as an unused default for the
empty case, which raises in numpy). -/
def npMin : List ℚ → ℚ
  | [] => 0
  | x :: xs => xs.foldl min x

/-- `np.max` over a flattened value list. -/
def npMax : List ℚ → ℚ
  | [] => 0
  | x :: xs => xs.foldl max x

/-- The divide-by-zero guard `1e-6` of `max(p_max - p_min, 1e-6)`. -/
def eps : ℚ := 1 / 1000000

/-- `np.clip(x, 0, 255)` on one value. -/
def clip255 (q : ℚ) : ℚ := min (max q 0) 255

/-- One pixel of `((v - p_min) / range * 255.0).clip(0, 255).astype(np.uint8)`:
after the clip the value is in `[0, 255]`, so the `uint8` cast truncates,
i.e. takes the floor. -/
def normVal (pmin rng v : ℚ) : ℕ := (⌊clip255 ((v - pmin) / rng * 255)⌋).toNat

/-- The normalization formula applied to every pixel of a frame. -/
def normFrame (pmin rng : ℚ) (f : Frame) : Frame8 :=
  f.map (fun row => row.map (normVal pmin rng))

/-- A `np.zeros_like` frame (uint8) of the same shape as `f`. -/
def zeroFrame (f : Frame) : Frame8 := f.map (fun row => row.map (fun _ => 0))

/-- `[int(ts * fps) for ts in scene_timestamps]` with the appended end
boundary `num_frames` (lines 115-116 and 148-149). -/
def sceneBnds (ts : List ℚ) (fps : ℚ) (n : ℕ) : List ℤ :=
  ts.map (fun t => pyInt (t * fps)) ++ [(n : ℤ)]

/-- The `scene_idx`-th boundary, converted and clamped to `[0, n]`. -/
def bClamp (bnds : List ℤ) (n : ℕ) (t : ℕ) : ℕ := clampIdx (bnds.getD t 0) n

/-- One iteration of the per-scene normalization loop (lines 153-171).
The mutable uint8 array `normalized` is modelled as a function from frame
index to frame; the numpy slice assignment
`normalized[start_frame:end_frame] = ...` overrides that range. -/
def normStep (processed : List Frame) (n : ℕ) (bnds : List ℤ)
    (acc : ℕ → Frame8) (i : ℕ) : ℕ → Frame8 :=
  let s := bClamp bnds n i
  let e := bClamp bnds n (i + 1)
  if e ≤ s then acc
  else
    let scene := (processed.drop s).take (e - s)
    let pmin := npMin (sceneValues scene)
    let pmax := npMax (sceneValues scene)
    let rng := max (pmax - pmin) eps
    fun j => if s ≤ j ∧ j < e then normFrame pmin rng (scene.getD (j - s) []) else acc j

/-- The per-scene normalization loop: `normalized = np.zeros_like(...)`
followed by `for scene_idx in range(len(scene_timestamps))` (lines 151-171). -/
def perSceneState (processed : List Frame) (ts : List ℚ) (fps : ℚ) : ℕ → Frame8 :=
  (List.range ts.length).foldl
    (normStep processed processed.length (sceneBnds ts fps processed.length))
    (fun j => zeroFrame (processed.getD j []))

/-- The global normalization path (lines 176-182). -/
def globalNormalize (processed : List Frame) : List Frame8 :=
  let pmin := npMin (sceneValues processed)
  let pmax := npMax (sceneValues processed)
  let rng := max (pmax - pmin) eps
  processed.map (normFrame pmin rng)

/-- Normalization dispatch (lines 144-182): per-scene when
`scene_timestamps and len(scene_timestamps) > 1`, otherwise global. -/
def normalizeDepth (processed : List Frame) (ts : List ℚ) (fps : ℚ) : List Frame8 :=
  if 1 < ts.length then
    (List.range processed.length).map (perSceneState processed ts fps)
  else globalNormalize processed

/-- `processed_frames[start_frame:end_frame]` for scene `t`, with the
clamped boundaries. -/
def sceneSlice (processed : List Frame) (n : ℕ) (bnds : List ℤ) (t : ℕ) : List Frame :=
  (processed.drop (bClamp bnds n t)).take (bClamp bnds n (t + 1) - bClamp bnds n t)

/-- The per-scene normalization machinery applied with a single scene
spanning the whole array: the boundary list is `[0, n]` and the loop runs
for exactly one scene. -/
def singleSceneNormalize (processed : List Frame) : List Frame8 :=
  (List.range processed.length).map
    ((List.range 1).foldl
      (normStep processed processed.length [(0 : ℤ), (processed.length : ℤ)])
      (fun j => zeroFrame (processed.getD j [])))

/-- `np.percentile(a, q)` with the default linear interpolation: sort the
flattened data ascending and interpolate at fractional position
`q / 100 * (len - 1)`. -/
def npPercentile (q : ℚ) (l : List ℚ) : ℚ :=
  let s := l.insertionSort (· ≤ ·)
  let pos := q / 100 * ((l.length : ℚ) - 1)
  let lo := (⌊pos⌋).toNat
  let frac := pos - (lo : ℚ)
  s.getD lo 0 + frac * (s.getD (lo + 1) (s.getD lo 0) - s.getD lo 0)

/-- The per-scene statistics loop of `process_depth_npz` (lines 114-140):
one `(min, max, 35th percentile)` triple per scene, with the sentinel
`(0, 1, 0.35)` for degenerate scenes; the empty list when no scene
timestamps are supplied. -/
def sceneStatsTriples (processed : List Frame) (ts : List ℚ) (fps : ℚ) :
    List (ℚ × ℚ × ℚ) :=
  if 0 < ts.length then
    let n := processed.length
    let bnds := sceneBnds ts fps n
    (List.range ts.length).map (fun i =>
      let s := bClamp bnds n i
      let e := bClamp bnds n (i + 1)
      if e ≤ s then (0, 1, 35 / 100)
      else
        let vals := sceneValues ((processed.drop s).take (e - s))
        (npMin vals, npMax vals, npPercentile 35 vals))
  else []

/-- `np.linspace(a, b, num)` with the default inclusive endpoint. -/
def npLinspace (a b : ℚ) (num : ℕ) : List ℚ :=
  if num = 1 then [a]
  else (List.range num).map (fun i : ℕ => a + (b - a) * (i : ℚ) / ((num : ℚ) - 1))

/-- `np.linspace(0, num_frames - 1, target_frames).astype(int)`
(line 194): the linspace samples truncated to integers (they are all
non-negative here, so truncation is the floor). -/
def dsIndices (n target : ℕ) : List ℤ :=
  (npLinspace 0 ((n : ℚ) - 1) target).map pyInt

/-- Frame-count reconciliation (lines 185-197): pad by repeating the last
frame when the target exceeds the source count, subsample via
`floor(linspace)` indices when it is smaller, and leave the array untouched
when the counts already agree.  `normalized[-1:]` is `frames.drop (n-1)`
and `np.repeat(·, k, axis=0)` on that one-frame slice is `k` copies. -/
def reconcileFrames (frames : List Frame8) (target : ℕ) : List Frame8 :=
  let n := frames.length
  if target = n then frames
  else if n < target then
    frames ++ (List.replicate (target - n) (frames.drop (n - 1))).flatten
  else
    (dsIndices n target).map (fun i => frames.getD i.toNat [])

/-- Shape handling for the loaded depth array (lines 61-76), at shape
level: a 2D shape gains a singleton frame axis; a 3D shape is transposed
from `(H, W, F)` to `(F, H, W)` exactly when the last dimension is strictly
smaller than both others; any other rank is fatal (`none`). -/
def orientShape (shape : List ℕ) : Option (ℕ × ℕ × ℕ) :=
  match shape with
  | [h, w] => some (1, h, w)
  | [a, b, c] => if c < a ∧ c < b then some (c, a, b) else some (a, b, c)
  | _ => none

/-- What `create_depth_npz` finds for one scene directory: a results npz
with a depth array, or no npz but a `depth.mp4` whose frame count ffprobe
reports, or no depth data at all (this last case also stands for an
unreadable npz or an unparsable ffprobe result, all of which the script
skips).  The optional `conf` entry is not modelled: it does not affect the
depth aggregation. -/
inductive SceneInput
  | npz (depth : List Frame)
  | flatVideo (numFrames : ℕ)
  | missing

/-- `(frames, height, width)` of a stored scene array are read off its
first frame (`all_depths[0].shape[1]`, `all_depths[0].shape[2]`). -/
def arrDims (a : List Frame) : ℕ × ℕ :=
  ((a.headD []).length, ((a.headD []).headD []).length)

/-- One iteration of the scene loop of `create_depth_npz` (lines 51-114),
acting on the state `(all_depths, total_frames)`: an npz scene appends its
depth array; a flat-depth scene appends a constant `100.0` placeholder
whose height and width come from `all_depths[0]` when that exists and
default to `308 × 728` otherwise; a scene with no depth data is skipped. -/
def aggStep (st : List (List Frame) × ℕ) (sc : SceneInput) : List (List Frame) × ℕ :=
  match sc with
  | SceneInput.npz depth => (st.1 ++ [depth], st.2 + depth.length)
  | SceneInput.flatVideo k =>
      let hw : ℕ × ℕ :=
        match st.1 with
        | [] => (308, 728)
        | arr :: _ => arrDims arr
      (st.1 ++ [List.replicate k (List.replicate hw.1 (List.replicate hw.2 (100 : ℚ)))],
        st.2 + k)
  | SceneInput.missing => st

/-- `np.concatenate(all_depths, axis=0)`: succeeds exactly when all arrays
share the same height and width, producing the frame-axis concatenation. -/
def npConcatenate (arrays : List (List Frame)) : Option (List Frame) :=
  if arrays.all (fun a => decide (arrDims a = arrDims (arrays.headD []))) then
    some arrays.flatten
  else none

/-- `create_depth_npz` (lines 22-142), reduced to its depth aggregation:
fold the scene loop, fail (`none`, i.e. `return False`) when no scene
produced any array, otherwise concatenate. -/
def create_depth_npz (scenes : List SceneInput) : Option (List Frame) :=
  let st := scenes.foldl aggStep ([], 0)
  if st.1 = [] then none else npConcatenate st.1

/-! ### The transform stage over `ℝ` -/

/-- A real-valued depth frame for the transform stage. -/
abbrev FrameR := List (List ℝ)

/-- Elementwise map over a frame (numpy unary ufunc application). -/
def mapF (g : ℝ → ℝ) (f : FrameR) : FrameR := f.map (fun row => row.map g)

/-- Elementwise combination of two same-shaped frames (numpy binary
arithmetic). -/
def zipF (g : ℝ → ℝ → ℝ) (f1 f2 : FrameR) : FrameR :=
  List.zipWith (fun r1 r2 => List.zipWith g r1 r2) f1 f2

/-- Two frames have the same shape: the same row count and row lengths. -/
def sameShape (f1 f2 : FrameR) : Prop := f1.map List.length = f2.map List.length

/-- `log_b(x)` as the spec writes it: `log x / log b`. -/
noncomputable def logB (b x : ℝ) : ℝ := Real.log x / Real.log b

/-- `np.log1p` applied elementwise. -/
noncomputable def nplog1pF (f : FrameR) : FrameR := mapF (fun x => Real.log (x + 1)) f

/-- Lines 90-93 and 98 of `process_depth_npz.py`: `np.log1p(y)` when
`log_base == np.e`, otherwise `np.log1p(y) / np.log(log_base)`. -/
noncomputable def loggedOf (b : ℝ) (f : FrameR) : FrameR :=
  if b = Real.exp 1 then nplog1pF f
  else mapF (fun x => x / Real.log b) (nplog1pF f)

/-- The per-frame transform stage (lines 86-101), with the external
`scipy.ndimage.gaussian_filter` call abstracted as `blurF`: blur, apply
`log_base(x+1)`, and when `sharpen > 0` blend in the log of the unblurred
frame as `sharpen * original_logged + (1 - sharpen) * logged`. -/
noncomputable def transformFrame (blurF : FrameR → FrameR) (b s : ℝ)
    (frame : FrameR) : FrameR :=
  let blurred := blurF frame
  let logged := loggedOf b blurred
  if 0 < s then
    zipF (fun x y => x + y) (mapF (fun x => s * x) (loggedOf b frame))
      (mapF (fun x => (1 - s) * x) logged)
  else logged

/-! ### Generic list helpers -/

theorem getD_range_map {α : Type} (f : ℕ → α) (d : α) {m i : ℕ} (h : i < m) :
    ((List.range m).map f).getD i d = f i := by
  rw [List.getD_eq_getElem?_getD, List.getElem?_map, List.getElem?_range h]
  rfl

theorem drop_length_sub_one {α : Type} (l : List α) (h : l ≠ []) :
    l.drop (l.length - 1) = [l.getLast h] := by
  induction l with
  | nil => exact absurd rfl h
  | cons x t ih =>
    cases t with
    | nil => rfl
    | cons y u =>
      rw [List.getLast_cons (by simp : y :: u ≠ [])]
      have : (x :: y :: u).length - 1 = (y :: u).length - 1 + 1 := by simp
      rw [this, List.drop_succ_cons, ih (by simp)]

theorem flatten_replicate_singleton {α : Type} (k : ℕ) (x : α) :
    (List.replicate k [x]).flatten = List.replicate k x := by
  induction k with
  | zero => rfl
  | succ m ih => rw [List.replicate_succ, List.replicate_succ, List.flatten_cons, ih]; rfl

/-! ### Claim C7 — shape orientation heuristic -/

/-- C7 counterexample: on the 3D shape `(5, 3, 4)` the code keeps axis 0 as
the frame axis (no transpose, since `4 < 5` but `4 < 3` fails), so the
dimension treated as the frame count is `5`, which is not the smallest of
the three dimensions (`3`). -/
theorem orientShape_smallest_cex :
    (orientShape [5, 3, 4]).map Prod.fst = some 5 ∧ (5 : ℕ) ≠ min 5 (min 3 4) := by
  decide

/-- C7 amended: a 3D array is transposed so that axis 2 becomes the frame
axis exactly when its size is strictly smaller than both other sizes (in
which case the frame dimension is the smallest of the three); otherwise
axis 0 stays the frame axis regardless of relative size; any rank other
than 2 or 3 is fatal. -/
theorem orientShape_spec (a b c : ℕ) (s : List ℕ) :
    (c < a → c < b → orientShape [a, b, c] = some (c, a, b) ∧ c = min a (min b c))
    ∧ (¬(c < a ∧ c < b) → orientShape [a, b, c] = some (a, b, c))
    ∧ (s.length ≠ 2 → s.length ≠ 3 → orientShape s = none) := by
  refine ⟨fun h1 h2 => ⟨?_, ?_⟩, fun h => ?_, fun h2 h3 => ?_⟩
  · simp only [orientShape, if_pos (And.intro h1 h2)]
  · omega
  · simp only [orientShape, if_neg h]
  · match s with
    | [] => rfl
    | [_] => rfl
    | [_, _] => exact absurd rfl h2
    | [_, _, _] => exact absurd rfl h3
    | _ :: _ :: _ :: _ :: _ => rfl

/-- Witness for `orientShape_spec` at the shapes `(4, 5, 2)` (transpose
fires) and `(1, 2, 3, 4)` (fatal rank). -/
theorem orientShape_spec_witness :
    (orientShape [4, 5, 2] = some (2, 4, 5) ∧ 2 = min 4 (min 5 2))
    ∧ orientShape [1, 2, 3, 4] = none :=
  ⟨(orientShape_spec 4 5 2 [1, 2, 3, 4]).1 (by decide) (by decide),
   (orientShape_spec 4 5 2 [1, 2, 3, 4]).2.2 (by decide) (by decide)⟩

/-! ### Claim C4 — downsampling reconciliation -/

theorem length_npLinspace (a b : ℚ) (num : ℕ) : (npLinspace a b num).length = num := by
  unfold npLinspace
  split
  · simp only [List.length_cons, List.length_nil]; omega
  · rw [List.length_map, List.length_range]

theorem length_dsIndices (n T : ℕ) : (dsIndices n T).length = T := by
  unfold dsIndices
  rw [List.length_map, length_npLinspace]

/-- C4: when the target frame count `T` is below the source count `N`, the
reconciler outputs exactly the `T` frames at the truncated
`linspace(0, N-1, T)` indices, in order; for `N = 10`, `T = 5` those
indices are `[0, 2, 4, 6, 9]`. -/
theorem reconcile_downsample (frames : List Frame8) (T : ℕ) (hlt : T < frames.length) :
    reconcileFrames frames T
        = (dsIndices frames.length T).map (fun i => frames.getD i.toNat [])
    ∧ (reconcileFrames frames T).length = T
    ∧ dsIndices 10 5 = [0, 2, 4, 6, 9] := by
  have hne : T ≠ frames.length := Nat.ne_of_lt hlt
  have hnlt : ¬ frames.length < T := Nat.not_lt.mpr (Nat.le_of_lt hlt)
  have heq : reconcileFrames frames T
      = (dsIndices frames.length T).map (fun i => frames.getD i.toNat []) := by
    simp only [reconcileFrames, if_neg hne, if_neg hnlt]
  refine ⟨heq, ?_, by decide⟩
  rw [heq, List.length_map, length_dsIndices]

/-- Witness for `reconcile_downsample`: ten constant frames downsampled to
five. -/
theorem reconcile_downsample_witness :
    5 < (List.replicate 10 [[(7 : ℕ)]]).length
    ∧ reconcileFrames (List.replicate 10 [[(7 : ℕ)]]) 5
        = (dsIndices (List.replicate 10 [[(7 : ℕ)]]).length 5).map
            (fun i => (List.replicate 10 [[(7 : ℕ)]]).getD i.toNat [])
    ∧ (reconcileFrames (List.replicate 10 [[(7 : ℕ)]]) 5).length = 5
    ∧ dsIndices 10 5 = [0, 2, 4, 6, 9] :=
  ⟨by decide, reconcile_downsample (List.replicate 10 [[(7 : ℕ)]]) 5 (by decide)⟩

/-! ### Claim C5 — padding / identity reconciliation -/

/-- C5: for a nonempty frame array, if the target count `T` exceeds the
source count `N` the reconciled output has length exactly `T`, its first
`N` frames are the input unchanged and its last `T - N` frames are each
bit-identical to the input's last frame; if `T = N` the output is the input
unchanged. -/
theorem reconcile_pad_or_identity (frames : List Frame8) (T : ℕ) (hne : frames ≠ []) :
    (frames.length < T →
      (reconcileFrames frames T).length = T
      ∧ (reconcileFrames frames T).take frames.length = frames
      ∧ (reconcileFrames frames T).drop frames.length
          = List.replicate (T - frames.length) (frames.getLast hne))
    ∧ (T = frames.length → reconcileFrames frames T = frames) := by
  constructor
  · intro hlt
    have hT : T ≠ frames.length := Nat.ne_of_gt hlt
    have heq : reconcileFrames frames T
        = frames ++ List.replicate (T - frames.length) (frames.getLast hne) := by
      simp only [reconcileFrames, if_neg hT, if_pos hlt]
      rw [drop_length_sub_one frames hne, flatten_replicate_singleton]
    refine ⟨?_, ?_, ?_⟩
    · rw [heq, List.length_append, List.length_replicate]; omega
    · rw [heq, List.take_left]
    · rw [heq, List.drop_left]
  · intro hEq
    simp only [reconcileFrames, if_pos hEq]

/-- Witness for `reconcile_pad_or_identity`: two frames padded to four, and
the identity case at target two. -/
theorem reconcile_pad_or_identity_witness :
    ([[[1]], [[2]]] : List Frame8) ≠ []
    ∧ ([[[1]], [[2]]] : List Frame8).length < 4
    ∧ (reconcileFrames [[[1]], [[2]]] 4).length = 4
    ∧ (reconcileFrames [[[1]], [[2]]] 4).take 2 = [[[1]], [[2]]]
    ∧ (reconcileFrames [[[1]], [[2]]] 4).drop 2 = [[[2]], [[2]]]
    ∧ reconcileFrames [[[1]], [[2]]] 2 = [[[1]], [[2]]] := by
  have h := reconcile_pad_or_identity ([[[1]], [[2]]] : List Frame8) 4 (by decide)
  have h2 := reconcile_pad_or_identity ([[[1]], [[2]]] : List Frame8) 2 (by decide)
  have hp := h.1 (by decide)
  exact ⟨by decide, by decide, hp.1, hp.2.1, by decide, h2.2 (by decide)⟩

/-! ### Claim C8 — degenerate scenes -/

/-- C8: a scene whose clamped frame range is empty (`start ≥ end`) is
skipped by the normalization loop (the accumulator array is returned
untouched, so those positions keep their zero initialization), and its
statistics entry is the sentinel `(0, 1, 0.35)` instead of being computed
from data. -/
theorem degenerate_scene_sentinel (processed : List Frame) (ts : List ℚ) (fps : ℚ)
    (i : ℕ) (hi : i < ts.length)
    (hdeg : bClamp (sceneBnds ts fps processed.length) processed.length (i + 1)
        ≤ bClamp (sceneBnds ts fps processed.length) processed.length i) :
    (∀ acc : ℕ → Frame8,
        normStep processed processed.length (sceneBnds ts fps processed.length) acc i = acc)
    ∧ (sceneStatsTriples processed ts fps).getD i (0, 0, 0) = (0, 1, 35 / 100) := by
  constructor
  · intro acc
    simp only [normStep, if_pos hdeg]
  · have hpos : 0 < ts.length := Nat.lt_of_le_of_lt (Nat.zero_le i) hi
    simp only [sceneStatsTriples, if_pos hpos]
    rw [getD_range_map _ _ hi, if_pos hdeg]

/-- Witness for `degenerate_scene_sentinel`: one frame, both timestamps
beyond the end of the array, so scene 0 clamps to the empty range `[1, 1)`. -/
theorem degenerate_scene_sentinel_witness :
    0 < ([2, 3] : List ℚ).length
    ∧ bClamp (sceneBnds [2, 3] 1 1) 1 1 ≤ bClamp (sceneBnds [2, 3] 1 1) 1 0
    ∧ (sceneStatsTriples [[[(5 : ℚ)]]] [2, 3] 1).getD 0 (0, 0, 0) = (0, 1, 35 / 100) := by
  have h := degenerate_scene_sentinel [[[(5 : ℚ)]]] [2, 3] 1 0 (by decide) (by decide)
  exact ⟨by decide, by decide, h.2⟩

/-! ### Claims C10 and C3 — statistics/normalization thresholds and the
global fallback -/

theorem getD_eq_get {α : Type} (l : List α) (i : ℕ) (d : α) (h : i < l.length) :
    l.getD i d = l.get ⟨i, h⟩ := by
  rw [List.getD_eq_getElem?_getD, List.getElem?_eq_getElem h]
  rfl

theorem map_eq_range_getD {α β : Type} (l : List α) (g : α → β) (d : α) :
    l.map g = (List.range l.length).map (fun j => g (l.getD j d)) := by
  refine List.ext_get (by simp) (fun i h1 h2 => ?_)
  rw [List.get_map, List.get_map, List.get_range]
  rw [getD_eq_get l i d (by simpa using h1)]

theorem clampIdx_natCast (n : ℕ) : clampIdx (n : ℤ) n = n := by
  simp [clampIdx]

theorem clampIdx_zero (n : ℕ) : clampIdx 0 n = 0 := by
  simp [clampIdx]

theorem sceneBnds_single (t fps : ℚ) (n : ℕ) :
    sceneBnds [t] fps n = [pyInt (t * fps), (n : ℤ)] := by
  simp [sceneBnds]

/-- C10: per-scene statistics are produced whenever at least one scene
timestamp is supplied while per-scene normalization needs at least two.
With zero timestamps the statistics list is empty; with exactly one
timestamp the statistics list has exactly one entry — computed over the
frames from the clamped converted index to the end when that index is
interior — while the normalized output still comes from the global path. -/
theorem stats_vs_normalization_thresholds (processed : List Frame) (t fps : ℚ) :
    sceneStatsTriples processed [] fps = []
    ∧ (sceneStatsTriples processed [t] fps).length = 1
    ∧ (clampIdx (pyInt (t * fps)) processed.length < processed.length →
        (sceneStatsTriples processed [t] fps).getD 0 (0, 0, 0)
          = (npMin (sceneValues
                (processed.drop (clampIdx (pyInt (t * fps)) processed.length))),
             npMax (sceneValues
                (processed.drop (clampIdx (pyInt (t * fps)) processed.length))),
             npPercentile 35 (sceneValues
                (processed.drop (clampIdx (pyInt (t * fps)) processed.length)))))
    ∧ normalizeDepth processed [t] fps = globalNormalize processed := by
  refine ⟨rfl, ?_, ?_, ?_⟩
  · simp only [sceneStatsTriples, List.length_singleton, if_pos Nat.one_pos]
    rw [List.length_map, List.length_range]
  · intro hlt
    simp only [sceneStatsTriples, List.length_singleton, if_pos Nat.one_pos]
    rw [getD_range_map _ _ Nat.one_pos]
    simp only [bClamp, sceneBnds_single]
    have he : clampIdx (([pyInt (t * fps), ((processed.length : ℕ) : ℤ)].getD 1 0))
        processed.length = processed.length := clampIdx_natCast _
    simp only [List.getD_cons_succ, List.getD_cons_zero] at he ⊢
    rw [he, if_neg (by omega)]
    have hdrop : (processed.drop (clampIdx (pyInt (t * fps)) processed.length)).length
        = processed.length - clampIdx (pyInt (t * fps)) processed.length :=
      List.length_drop _ _
    rw [← hdrop, List.take_length]
  · simp only [normalizeDepth, List.length_singleton,
      if_neg (by omega : ¬ (1 : ℕ) < 1)]

/-- Witness for `stats_vs_normalization_thresholds`: a single 1×2 frame
with values `[0, 10]` and one timestamp at 0 seconds. -/
theorem stats_vs_normalization_thresholds_witness :
    clampIdx (pyInt ((0 : ℚ) * 1)) ([[[(0 : ℚ), 10]]] : List Frame).length
        < ([[[(0 : ℚ), 10]]] : List Frame).length
    ∧ (sceneStatsTriples [[[(0 : ℚ), 10]]] [0] 1).getD 0 (0, 0, 0) = (0, 10, 7 / 2)
    ∧ normalizeDepth [[[(0 : ℚ), 10]]] [(0 : ℚ)] 1 = globalNormalize [[[(0 : ℚ), 10]]] := by
  have h := stats_vs_normalization_thresholds [[[(0 : ℚ), 10]]] 0 1
  refine ⟨by decide, ?_, h.2.2.2⟩
  rw [h.2.2.1 (by decide)]
  decide

theorem singleScene_eq_global (processed : List Frame) :
    globalNormalize processed = singleSceneNormalize processed := by
  unfold singleSceneNormalize
  rw [(by decide : List.range 1 = [0]), List.foldl_cons, List.foldl_nil]
  cases hn : processed with
  | nil => rfl
  | cons f rest =>
    rw [← hn]
    have hlen : 0 < processed.length := by rw [hn]; exact Nat.succ_pos _
    simp only [normStep, bClamp, List.getD_cons_zero, List.getD_cons_succ,
      clampIdx_zero, clampIdx_natCast]
    rw [if_neg (by omega : ¬ processed.length ≤ 0)]
    simp only [List.drop_zero, Nat.sub_zero, List.take_length]
    unfold globalNormalize
    rw [map_eq_range_getD processed (normFrame _ _) []]
    refine List.map_congr_left (fun j hj => ?_)
    rw [List.mem_range] at hj
    rw [if_pos ⟨Nat.zero_le j, hj⟩]

/-- C3: with fewer than two scene boundaries the normalizer takes the
single global min/max/range path, and that global normalization coincides
with the per-scene machinery run with one scene spanning all frames. -/
theorem global_fallback (processed : List Frame) (ts : List ℚ) (fps : ℚ)
    (hlen : ts.length < 2) :
    normalizeDepth processed ts fps = globalNormalize processed
    ∧ globalNormalize processed = singleSceneNormalize processed := by
  constructor
  · simp only [normalizeDepth, if_neg (by omega : ¬ 1 < ts.length)]
  · exact singleScene_eq_global processed

/-- Witness for `global_fallback`: a single frame with values `[0, 10]`
and no timestamps; the global extremes map to 0 and 255 exactly. -/
theorem global_fallback_witness :
    (([] : List ℚ)).length < 2
    ∧ normalizeDepth [[[(0 : ℚ), 10]]] [] 24 = globalNormalize [[[(0 : ℚ), 10]]]
    ∧ globalNormalize [[[(0 : ℚ), 10]]] = singleSceneNormalize [[[(0 : ℚ), 10]]]
    ∧ globalNormalize [[[(0 : ℚ), 10]]] = [[[0, 255]]] := by
  have h := global_fallback [[[(0 : ℚ), 10]]] [] 24 (by decide)
  exact ⟨by decide, h.1, h.2, by decide⟩

/-! ### Claim C2 — the transform stage blend -/

theorem mapF_mapF (g h : ℝ → ℝ) (f : FrameR) :
    mapF g (mapF h f) = mapF (fun x => g (h x)) f := by
  simp [mapF, List.map_map, Function.comp_def]

theorem loggedOf_eq (b : ℝ) (f : FrameR) :
    loggedOf b f = mapF (fun x => logB b (x + 1)) f := by
  unfold loggedOf nplog1pF
  split
  · rename_i h
    rw [h]
    simp [logB, Real.log_exp]
  · rw [mapF_mapF]
    rfl

theorem zipF_map_map (g : ℝ → ℝ → ℝ) (p q : ℝ → ℝ) (f1 f2 : FrameR) :
    zipF g (mapF p f1) (mapF q f2) = zipF (fun x y => g (p x) (q y)) f1 f2 := by
  induction f1 generalizing f2 with
  | nil => rfl
  | cons r t ih =>
    cases f2 with
    | nil => rfl
    | cons r2 t2 =>
      simp only [zipF, mapF] at ih ⊢
      rw [List.map_cons, List.map_cons, List.zipWith_cons_cons, List.zipWith_cons_cons,
        List.zipWith_map, ih]

theorem zipWith_const_left {α : Type} (k : α → α) (l1 l2 : List α)
    (h : l1.length = l2.length) :
    List.zipWith (fun x _ => k x) l1 l2 = l1.map k := by
  induction l1 generalizing l2 with
  | nil => rfl
  | cons x t ih =>
    cases l2 with
    | nil => exact absurd h (by simp)
    | cons y u => simp only [List.zipWith_cons_cons, List.map_cons, ih u (by simpa using h)]

theorem zipWith_const_right {α : Type} (k : α → α) (l1 l2 : List α)
    (h : l1.length = l2.length) :
    List.zipWith (fun _ y => k y) l1 l2 = l2.map k := by
  induction l1 generalizing l2 with
  | nil => cases l2 with
    | nil => rfl
    | cons y u => exact absurd h (by simp)
  | cons x t ih =>
    cases l2 with
    | nil => exact absurd h (by simp)
    | cons y u => simp only [List.zipWith_cons_cons, List.map_cons, ih u (by simpa using h)]

theorem zipF_fst (k : ℝ → ℝ) (f1 f2 : FrameR) (h : sameShape f1 f2) :
    zipF (fun x _ => k x) f1 f2 = mapF k f1 := by
  induction f1 generalizing f2 with
  | nil => rfl
  | cons r t ih =>
    cases f2 with
    | nil => exact absurd h (by simp [sameShape])
    | cons r2 t2 =>
      unfold sameShape at h
      simp only [List.map_cons, List.cons.injEq] at h
      simp only [zipF, mapF, List.zipWith_cons_cons, List.map_cons]
      have hrow := zipWith_const_left k r r2 h.1
      have htail := ih t2 h.2
      simp only [zipF, mapF] at htail
      rw [hrow, htail]

theorem zipF_snd (k : ℝ → ℝ) (f1 f2 : FrameR) (h : sameShape f1 f2) :
    zipF (fun _ y => k y) f1 f2 = mapF k f2 := by
  induction f1 generalizing f2 with
  | nil =>
    cases f2 with
    | nil => rfl
    | cons r2 t2 => exact absurd h (by simp [sameShape])
  | cons r t ih =>
    cases f2 with
    | nil => exact absurd h (by simp [sameShape])
    | cons r2 t2 =>
      unfold sameShape at h
      simp only [List.map_cons, List.cons.injEq] at h
      simp only [zipF, mapF, List.zipWith_cons_cons, List.map_cons]
      have hrow := zipWith_const_right k r r2 h.1
      have htail := ih t2 h.2
      simp only [zipF, mapF] at htail
      rw [hrow, htail]

/-- C2: with the blur abstracted as a shape-preserving external function,
the transform stage with sharpen weight `s ∈ [0, 1]` outputs
`s * log_b(frame + 1) + (1 - s) * log_b(blur(frame) + 1)` elementwise; at
`s = 0` it is exactly `log_b(blur(frame) + 1)` and at `s = 1` exactly
`log_b(frame + 1)`. -/
theorem depth_transform_blend (blurF : FrameR → FrameR) (b s : ℝ) (frame : FrameR)
    (hsh : sameShape frame (blurF frame)) (h0 : 0 ≤ s) (_h1 : s ≤ 1) :
    transformFrame blurF b s frame
      = zipF (fun x y => s * logB b (x + 1) + (1 - s) * logB b (y + 1))
          frame (blurF frame)
    ∧ transformFrame blurF b 0 frame
      = mapF (fun y => logB b (y + 1)) (blurF frame)
    ∧ transformFrame blurF b 1 frame
      = mapF (fun x => logB b (x + 1)) frame := by
  have hblend : ∀ u : ℝ, 0 < u →
      transformFrame blurF b u frame
        = zipF (fun x y => u * logB b (x + 1) + (1 - u) * logB b (y + 1))
            frame (blurF frame) := by
    intro u hu
    simp only [transformFrame, if_pos hu]
    rw [loggedOf_eq, loggedOf_eq, mapF_mapF, mapF_mapF, zipF_map_map]
  have hzero :
      transformFrame blurF b 0 frame
        = mapF (fun y => logB b (y + 1)) (blurF frame) := by
    simp only [transformFrame, if_neg (lt_irrefl (0 : ℝ))]
    rw [loggedOf_eq]
  refine ⟨?_, hzero, ?_⟩
  · rcases lt_or_eq_of_le h0 with hpos | hzero'
    · exact hblend s hpos
    · rw [← hzero']
      rw [hzero]
      have : (fun x y => (0 : ℝ) * logB b (x + 1) + (1 - 0) * logB b (y + 1))
          = fun _ y => logB b (y + 1) := by
        funext x y
        rw [zero_mul, zero_add, sub_zero, one_mul]
      rw [this, zipF_snd _ _ _ hsh]
  · rw [hblend 1 one_pos]
    have : (fun x y => (1 : ℝ) * logB b (x + 1) + (1 - 1) * logB b (y + 1))
        = fun x _ => logB b (x + 1) := by
      funext x y
      rw [one_mul, sub_self, zero_mul, add_zero]
    rw [this, zipF_fst _ _ _ hsh]

/-- Witness for `depth_transform_blend`: a 1×1 frame with value 3, a
constant blur, base 2 and sharpen 1/2. -/
theorem depth_transform_blend_witness :
    sameShape [[(3 : ℝ)]] ((fun f => mapF (fun _ => 2) f) [[(3 : ℝ)]])
    ∧ (0 : ℝ) ≤ 1 / 2 ∧ (1 / 2 : ℝ) ≤ 1
    ∧ transformFrame (fun f => mapF (fun _ => 2) f) 2 (1 / 2) [[(3 : ℝ)]]
        = zipF (fun x y => (1 / 2 : ℝ) * logB 2 (x + 1) + (1 - 1 / 2) * logB 2 (y + 1))
            [[(3 : ℝ)]] ((fun f => mapF (fun _ => 2) f) [[(3 : ℝ)]]) :=
  ⟨by simp [sameShape, mapF], by norm_num, by norm_num,
   (depth_transform_blend (fun f => mapF (fun _ => 2) f) 2 (1 / 2) [[(3 : ℝ)]]
      (by simp [sameShape, mapF]) (by norm_num) (by norm_num)).1⟩

/-! ### Claim C9 — monotonicity of the downsampling indices -/

theorem pyInt_mono {q r : ℚ} (h : q ≤ r) : pyInt q ≤ pyInt r := by
  unfold pyInt
  split <;> split
  · exact Int.ceil_mono h
  · rename_i hq hr
    exact le_trans (Int.ceil_le.mpr (by exact_mod_cast hq.le))
      (Int.floor_nonneg.mpr (not_lt.mp hr))
  · rename_i hq hr
    exact absurd (lt_of_le_of_lt h hr) hq
  · exact Int.floor_mono h

theorem dsIndices_eq_map (n T : ℕ) (hT : T ≠ 1) :
    dsIndices n T = (List.range T).map
      (fun i : ℕ => pyInt (0 + ((n : ℚ) - 1 - 0) * (i : ℚ) / ((T : ℚ) - 1))) := by
  unfold dsIndices npLinspace
  rw [if_neg hT, List.map_map]
  rfl

theorem dsIndices_chain' (n T : ℕ) (hT : 1 ≤ T) (hlt : T < n) :
    List.Chain' (· ≤ ·) (dsIndices n T) := by
  rcases eq_or_lt_of_le hT with h1 | h2
  · rw [← h1]
    unfold dsIndices npLinspace
    rw [if_pos rfl]
    exact List.chain'_singleton _
  · rw [dsIndices_eq_map n T (by omega)]
    rw [List.chain'_map]
    obtain ⟨m, rfl⟩ : ∃ m, T = m + 1 := ⟨T - 1, by omega⟩
    rw [List.chain'_range_succ]
    intro i hi
    apply pyInt_mono
    have hn2 : (2 : ℚ) ≤ (n : ℚ) := by exact_mod_cast (by omega : 2 ≤ n)
    have hTpos : (0 : ℚ) < ((m + 1 : ℕ) : ℚ) - 1 := by
      have : (1 : ℚ) ≤ (m : ℚ) := by exact_mod_cast (by omega : 1 ≤ m)
      push_cast
      linarith
    have hmul : ((n : ℚ) - 1 - 0) * (i : ℚ) ≤ ((n : ℚ) - 1 - 0) * ((i + 1 : ℕ) : ℚ) := by
      apply mul_le_mul_of_nonneg_left _ (by linarith)
      exact_mod_cast Nat.le_succ i
    exact add_le_add_left ((div_le_div_right hTpos).mpr hmul) 0

theorem dsIndices_head (n T : ℕ) (hT : 1 ≤ T) : (dsIndices n T).head? = some 0 := by
  rcases eq_or_lt_of_le hT with h1 | h2
  · rw [← h1]
    unfold dsIndices npLinspace
    rw [if_pos rfl]
    norm_num [pyInt]
  · rw [dsIndices_eq_map n T (by omega)]
    obtain ⟨m, rfl⟩ : ∃ m, T = m + 1 := ⟨T - 1, by omega⟩
    rw [List.range_succ_eq_map, List.map_cons, List.head?_cons]
    congr 1
    norm_num [pyInt]

theorem dsIndices_last (n T : ℕ) (h2 : 2 ≤ T) (hlt : T < n) :
    (dsIndices n T).getLast? = some ((n : ℤ) - 1) := by
  rw [dsIndices_eq_map n T (by omega), List.getLast?_eq_getElem?]
  rw [List.length_map, List.length_range, List.getElem?_map,
    List.getElem?_range (by omega : T - 1 < T)]
  simp only [Option.map_some']
  congr 1
  have hTcast : ((T - 1 : ℕ) : ℚ) = (T : ℚ) - 1 := by
    push_cast [Nat.cast_sub (by omega : 1 ≤ T)]
    ring
  have hTne : ((T : ℚ) - 1) ≠ 0 := by
    have : (2 : ℚ) ≤ (T : ℚ) := by exact_mod_cast h2
    intro hc
    rw [sub_eq_zero] at hc
    linarith
  rw [hTcast, mul_div_assoc, div_self hTne, mul_one]
  have hval : (0 : ℚ) + ((n : ℚ) - 1 - 0) = ((n - 1 : ℕ) : ℚ) := by
    push_cast [Nat.cast_sub (by omega : 1 ≤ n)]
    ring
  rw [hval]
  unfold pyInt
  rw [if_neg (not_lt.mpr (Nat.cast_nonneg _))]
  rw [Int.floor_natCast]
  omega

/-- C9: for `1 ≤ T < N` the truncated `linspace(0, N-1, T)` index sequence
is non-decreasing, starts at 0 and (for `T ≥ 2`) ends at `N - 1`; hence the
downsampled output preserves temporal order and keeps the first frame and,
for `T ≥ 2`, the last frame. -/
theorem downsample_order_preserved (frames : List Frame8) (T : ℕ)
    (hT : 1 ≤ T) (hlt : T < frames.length) :
    List.Chain' (· ≤ ·) (dsIndices frames.length T)
    ∧ (dsIndices frames.length T).head? = some 0
    ∧ (2 ≤ T → (dsIndices frames.length T).getLast? = some ((frames.length : ℤ) - 1))
    ∧ (reconcileFrames frames T).head? = some (frames.getD 0 [])
    ∧ (2 ≤ T →
        (reconcileFrames frames T).getLast? = some (frames.getD (frames.length - 1) [])) := by
  have hmap : reconcileFrames frames T
      = (dsIndices frames.length T).map (fun i => frames.getD i.toNat []) := by
    simp only [reconcileFrames, if_neg (Nat.ne_of_lt hlt), if_neg (Nat.not_lt.mpr hlt.le)]
  refine ⟨dsIndices_chain' _ _ hT hlt, dsIndices_head _ _ hT,
    fun h2 => dsIndices_last _ _ h2 hlt, ?_, fun h2 => ?_⟩
  · rw [hmap, List.head?_map, dsIndices_head _ _ hT]
    rfl
  · rw [hmap, List.getLast?_map, dsIndices_last _ _ h2 hlt]
    simp only [Option.map_some']
    have htn : ((frames.length : ℤ) - 1).toNat = frames.length - 1 := by omega
    rw [htn]

/-- Witness for `downsample_order_preserved`: three frames downsampled to
two; the selected indices are `[0, 2]`. -/
theorem downsample_order_preserved_witness :
    1 ≤ 2 ∧ 2 < ([[[1]], [[2]], [[3]]] : List Frame8).length
    ∧ List.Chain' (· ≤ ·) (dsIndices ([[[1]], [[2]], [[3]]] : List Frame8).length 2)
    ∧ (dsIndices ([[[1]], [[2]], [[3]]] : List Frame8).length 2).head? = some 0
    ∧ (reconcileFrames [[[1]], [[2]], [[3]]] 2).head?
        = some (([[[1]], [[2]], [[3]]] : List Frame8).getD 0 [])
    ∧ (reconcileFrames [[[1]], [[2]], [[3]]] 2).getLast?
        = some (([[[1]], [[2]], [[3]]] : List Frame8).getD 2 []) := by
  have h := downsample_order_preserved [[[1]], [[2]], [[3]]] 2 (by omega) (by decide)
  exact ⟨by omega, by decide, h.1, h.2.1, h.2.2.2.1, h.2.2.2.2 (by omega)⟩

/-! ### Claim C1 — correctness of the per-scene normalization loop -/

theorem bClamp_le (bnds : List ℤ) (n t : ℕ) : bClamp bnds n t ≤ n := by
  unfold bClamp clampIdx
  rw [Int.toNat_le]
  exact max_le (Int.natCast_nonneg n) (min_le_right _ _)

theorem clampIdx_mono {i j : ℤ} (h : i ≤ j) (n : ℕ) : clampIdx i n ≤ clampIdx j n := by
  unfold clampIdx
  exact Int.toNat_le_toNat (max_le_max (le_refl 0) (min_le_min h (le_refl _)))

theorem normStep_apply_out (processed : List Frame) (n : ℕ) (bnds : List ℤ)
    (acc : ℕ → Frame8) (i j : ℕ)
    (hj : j < bClamp bnds n i ∨ bClamp bnds n (i + 1) ≤ j) :
    normStep processed n bnds acc i j = acc j := by
  simp only [normStep]
  split
  · rfl
  · rename_i hlt
    show (if bClamp bnds n i ≤ j ∧ j < bClamp bnds n (i + 1) then _ else acc j) = acc j
    rw [if_neg]
    rintro ⟨h1, h2⟩
    omega

theorem normStep_apply_in (processed : List Frame) (n : ℕ) (bnds : List ℤ)
    (acc : ℕ → Frame8) (i j : ℕ)
    (h1 : bClamp bnds n i ≤ j) (h2 : j < bClamp bnds n (i + 1)) :
    normStep processed n bnds acc i j
      = normFrame
          (npMin (sceneValues (sceneSlice processed n bnds i)))
          (max (npMax (sceneValues (sceneSlice processed n bnds i))
            - npMin (sceneValues (sceneSlice processed n bnds i))) eps)
          ((sceneSlice processed n bnds i).getD (j - bClamp bnds n i) []) := by
  have hne : ¬ bClamp bnds n (i + 1) ≤ bClamp bnds n i := by omega
  simp only [normStep, if_neg hne]
  show (if bClamp bnds n i ≤ j ∧ j < bClamp bnds n (i + 1) then _ else acc j) = _
  rw [if_pos ⟨h1, h2⟩]
  rfl

theorem foldl_normStep_untouched (processed : List Frame) (n : ℕ) (bnds : List ℤ) :
    ∀ (k i : ℕ) (acc : ℕ → Frame8) (j : ℕ),
      (∀ t, i ≤ t → t < i + k → j < bClamp bnds n t) →
      ((List.range' i k).foldl (normStep processed n bnds) acc) j = acc j := by
  intro k
  induction k with
  | zero => intro i acc j _; rfl
  | succ m ih =>
    intro i acc j h
    rw [List.range'_succ, List.foldl_cons]
    rw [ih (i + 1) _ j (fun t ht1 ht2 => h t (by omega) (by omega))]
    exact normStep_apply_out processed n bnds acc i j (Or.inl (h i (le_refl i) (by omega)))

theorem foldl_normStep_written (processed : List Frame) (n : ℕ) (bnds : List ℤ) :
    ∀ (k i : ℕ) (acc : ℕ → Frame8) (t j : ℕ),
      i ≤ t → t < i + k →
      bClamp bnds n t ≤ j → j < bClamp bnds n (t + 1) →
      (∀ u, i ≤ u → u < t → bClamp bnds n (u + 1) ≤ bClamp bnds n t) →
      (∀ u, t < u → u < i + k → bClamp bnds n (t + 1) ≤ bClamp bnds n u) →
      ((List.range' i k).foldl (normStep processed n bnds) acc) j
        = normFrame
            (npMin (sceneValues (sceneSlice processed n bnds t)))
            (max (npMax (sceneValues (sceneSlice processed n bnds t))
              - npMin (sceneValues (sceneSlice processed n bnds t))) eps)
            ((sceneSlice processed n bnds t).getD (j - bClamp bnds n t) []) := by
  intro k
  induction k with
  | zero => intro i acc t j h1 h2; omega
  | succ m ih =>
    intro i acc t j hit htk hsj hje hbefore hafter
    rw [List.range'_succ, List.foldl_cons]
    rcases eq_or_lt_of_le hit with heq | hgt
    · -- the first processed scene is `t` itself: it writes `j`, and no
      -- later scene touches it again
      subst heq
      rw [foldl_normStep_untouched processed n bnds m (i + 1) _ j
        (fun u hu1 hu2 => lt_of_lt_of_le hje
          (by rcases eq_or_lt_of_le hu1 with h | h
              · exact le_of_eq (congrArg (bClamp bnds n) h)
              · exact hafter u (by omega) (by omega)))]
      exact normStep_apply_in processed n bnds acc i j hsj hje
    · -- scene `i` precedes `t`: it leaves `j` alone, recurse
      have hskip : normStep processed n bnds acc i j = acc j := by
        apply normStep_apply_out
        right
        exact le_trans (hbefore i (le_refl i) hgt) hsj
      have := ih (i + 1) (normStep processed n bnds acc i) t j (by omega) (by omega)
        hsj hje (fun u hu1 hu2 => hbefore u (by omega) hu2)
        (fun u hu1 hu2 => hafter u hu1 (by omega))
      rw [this]
  -- (the skipped write on position `j` matters only through the accumulator,
  -- which the written value does not consult)

theorem sceneBnds_getD_lt (ts : List ℚ) (fps : ℚ) (n : ℕ) (u : ℕ) (hu : u < ts.length) :
    (sceneBnds ts fps n).getD u 0 = pyInt (ts.get ⟨u, hu⟩ * fps) := by
  unfold sceneBnds
  rw [List.getD_eq_getElem?_getD, List.getElem?_append_left (by simpa using hu),
    List.getElem?_map, List.getElem?_eq_getElem hu]
  rfl

theorem sceneBnds_getD_last (ts : List ℚ) (fps : ℚ) (n : ℕ) :
    (sceneBnds ts fps n).getD ts.length 0 = (n : ℤ) := by
  unfold sceneBnds
  rw [List.getD_eq_getElem?_getD]
  have hlen : (ts.map (fun t => pyInt (t * fps))).length = ts.length :=
    List.length_map _ _
  rw [← hlen, List.getElem?_concat_length]
  rfl

theorem bClamp_sceneBnds_consec (ts : List ℚ) (fps : ℚ) (n : ℕ)
    (hsort : List.Chain' (· < ·) ts) (hfps : 0 < fps) :
    ∀ t, t + 1 ≤ ts.length →
      bClamp (sceneBnds ts fps n) n t ≤ bClamp (sceneBnds ts fps n) n (t + 1) := by
  intro t ht
  rcases eq_or_lt_of_le ht with heq | hlt
  · unfold bClamp
    rw [heq, sceneBnds_getD_last, clampIdx_natCast]
    exact bClamp_le _ _ _
  · unfold bClamp
    rw [sceneBnds_getD_lt ts fps n t (by omega), sceneBnds_getD_lt ts fps n (t + 1) hlt]
    apply clampIdx_mono
    apply pyInt_mono
    have := List.chain'_iff_get.mp hsort t (by omega)
    exact le_of_lt (mul_lt_mul_of_pos_right this hfps)

theorem bClamp_mono_le (bnds : List ℤ) (n m : ℕ)
    (hcons : ∀ t, t + 1 ≤ m → bClamp bnds n t ≤ bClamp bnds n (t + 1)) :
    ∀ u v, u ≤ v → v ≤ m → bClamp bnds n u ≤ bClamp bnds n v := by
  intro u v huv hvm
  induction v with
  | zero => have : u = 0 := by omega
            rw [this]
  | succ w ih =>
    rcases Nat.lt_or_ge u (w + 1) with h | h
    · exact le_trans (ih (by omega) (by omega)) (hcons w (by omega))
    · have : u = w + 1 := by omega
      rw [this]

theorem sceneSlice_getD (processed : List Frame) (bnds : List ℤ) (t j : ℕ)
    (h1 : bClamp bnds processed.length t ≤ j)
    (h2 : j < bClamp bnds processed.length (t + 1)) :
    (sceneSlice processed processed.length bnds t).getD
        (j - bClamp bnds processed.length t) []
      = processed.getD j [] := by
  unfold sceneSlice
  rw [List.getD_eq_getElem?_getD, List.getD_eq_getElem?_getD]
  rw [List.getElem?_take_of_lt (by omega), List.getElem?_drop]
  congr 2
  omega

theorem normVal_le_255 (pmin rng v : ℚ) : normVal pmin rng v ≤ 255 := by
  unfold normVal clip255
  have h1 : min (max ((v - pmin) / rng * 255) 0) 255 ≤ 255 := min_le_right _ _
  have h2 : ⌊min (max ((v - pmin) / rng * 255) 0) 255⌋ ≤ (255 : ℤ) := by
    calc ⌊min (max ((v - pmin) / rng * 255) 0) 255⌋ ≤ ⌊(255 : ℚ)⌋ := Int.floor_mono h1
    _ = 255 := by norm_num
  exact Int.toNat_le.mpr (le_trans h2 (by norm_num))

theorem normFrame_le_255 (pmin rng : ℚ) (f : Frame) :
    ∀ row ∈ normFrame pmin rng f, ∀ v ∈ row, v ≤ 255 := by
  intro row hrow v hv
  unfold normFrame at hrow
  rcases List.mem_map.mp hrow with ⟨r, _, rfl⟩
  rcases List.mem_map.mp hv with ⟨x, _, rfl⟩
  exact normVal_le_255 _ _ _

theorem zeroFrame_le_255 (f : Frame) :
    ∀ row ∈ zeroFrame f, ∀ v ∈ row, v ≤ 255 := by
  intro row hrow v hv
  unfold zeroFrame at hrow
  rcases List.mem_map.mp hrow with ⟨r, _, rfl⟩
  rcases List.mem_map.mp hv with ⟨x, _, rfl⟩
  omega

theorem normStep_preserves_le (processed : List Frame) (n : ℕ) (bnds : List ℤ)
    (i : ℕ) (acc : ℕ → Frame8)
    (h : ∀ j, ∀ row ∈ acc j, ∀ v ∈ row, v ≤ 255) :
    ∀ j, ∀ row ∈ normStep processed n bnds acc i j, ∀ v ∈ row, v ≤ 255 := by
  intro j
  simp only [normStep]
  split
  · exact h j
  · show ∀ row ∈ (if bClamp bnds n i ≤ j ∧ j < bClamp bnds n (i + 1) then _ else acc j),
      ∀ v ∈ row, v ≤ 255
    split
    · exact normFrame_le_255 _ _ _
    · exact h j

theorem foldl_normStep_preserves_le (processed : List Frame) (n : ℕ) (bnds : List ℤ) :
    ∀ (l : List ℕ) (acc : ℕ → Frame8),
      (∀ j, ∀ row ∈ acc j, ∀ v ∈ row, v ≤ 255) →
      ∀ j, ∀ row ∈ (l.foldl (normStep processed n bnds) acc) j, ∀ v ∈ row, v ≤ 255 := by
  intro l
  induction l with
  | nil => intro acc h; exact h
  | cons x t ih =>
    intro acc h
    rw [List.foldl_cons]
    exact ih _ (normStep_preserves_le _ _ _ _ _ h)

theorem normalizeDepth_le_255 (processed : List Frame) (ts : List ℚ) (fps : ℚ) :
    ∀ f ∈ normalizeDepth processed ts fps, ∀ row ∈ f, ∀ v ∈ row, v ≤ 255 := by
  intro f hf
  unfold normalizeDepth at hf
  split at hf
  · rcases List.mem_map.mp hf with ⟨j, _, rfl⟩
    unfold perSceneState
    exact foldl_normStep_preserves_le _ _ _ _ _ (fun j => zeroFrame_le_255 _) j
  · unfold globalNormalize at hf
    rcases List.mem_map.mp hf with ⟨fr, _, rfl⟩
    exact normFrame_le_255 _ _ _

/-- C1: under the data-model invariant (strictly increasing scene
timestamps, positive fps) and with at least two timestamps, every output
pixel of the per-scene normalizer inside a nondegenerate clamped scene
range `[start_i, end_i)` equals
`clip((value - p_min) / max(p_max - p_min, 1e-6) * 255, 0, 255)` truncated
to an 8-bit integer, with `p_min`/`p_max` the extremes over that scene's
frames (this is `normFrame` over the scene slice); and every output value
of the normalizer is within `[0, 255]` for any input whatsoever. -/
theorem per_scene_normalizer (processed : List Frame) (ts : List ℚ) (fps : ℚ)
    (hm : 1 < ts.length) (hsort : List.Chain' (· < ·) ts) (hfps : 0 < fps) :
    (∀ i, i < ts.length →
      ∀ j, bClamp (sceneBnds ts fps processed.length) processed.length i ≤ j →
        j < bClamp (sceneBnds ts fps processed.length) processed.length (i + 1) →
        (normalizeDepth processed ts fps).getD j []
          = normFrame
              (npMin (sceneValues (sceneSlice processed processed.length
                (sceneBnds ts fps processed.length) i)))
              (max (npMax (sceneValues (sceneSlice processed processed.length
                  (sceneBnds ts fps processed.length) i))
                - npMin (sceneValues (sceneSlice processed processed.length
                  (sceneBnds ts fps processed.length) i))) eps)
              (processed.getD j []))
    ∧ (∀ pr : List Frame, ∀ ts2 : List ℚ, ∀ f2 : ℚ,
        ∀ fr ∈ normalizeDepth pr ts2 f2, ∀ row ∈ fr, ∀ v ∈ row, v ≤ 255) := by
  refine ⟨?_, fun pr ts2 f2 => normalizeDepth_le_255 pr ts2 f2⟩
  intro i hi j hsj hje
  have hjn : j < processed.length :=
    lt_of_lt_of_le hje (bClamp_le (sceneBnds ts fps processed.length) processed.length (i + 1))
  have hdisp : normalizeDepth processed ts fps
      = (List.range processed.length).map (perSceneState processed ts fps) := by
    simp only [normalizeDepth, if_pos hm]
  rw [hdisp, getD_range_map _ _ hjn]
  unfold perSceneState
  rw [List.range_eq_range']
  have hcons := bClamp_sceneBnds_consec ts fps processed.length hsort hfps
  have hmono := bClamp_mono_le (sceneBnds ts fps processed.length) processed.length
    ts.length hcons
  rw [foldl_normStep_written processed processed.length
      (sceneBnds ts fps processed.length) ts.length 0 _ i j (Nat.zero_le i) (by omega)
      hsj hje
      (fun u _ hu2 => hmono (u + 1) i hu2 (by omega))
      (fun u hu1 hu2 => hmono (i + 1) u hu1 (by omega))]
  rw [sceneSlice_getD processed (sceneBnds ts fps processed.length) i j hsj hje]

/-- Witness for `per_scene_normalizer`: two 1×1 frames with two scenes of
one frame each; the pixel of the second scene normalizes to 0 (degenerate
range guard `1e-6`). -/
theorem per_scene_normalizer_witness :
    1 < ([(0 : ℚ), 1]).length
    ∧ List.Chain' (· < ·) [(0 : ℚ), 1]
    ∧ (0 : ℚ) < 1
    ∧ bClamp (sceneBnds [(0 : ℚ), 1] 1 2) 2 1 ≤ 1
    ∧ 1 < bClamp (sceneBnds [(0 : ℚ), 1] 1 2) 2 2
    ∧ (normalizeDepth [[[(0 : ℚ)]], [[(4 : ℚ)]]] [0, 1] 1).getD 1 [] = [[0]] := by
  have h := (per_scene_normalizer [[[(0 : ℚ)]], [[(4 : ℚ)]]] [0, 1] 1
    (by decide) (by norm_num [List.chain'_cons]) (by decide)).1 1 (by decide) 1
    (by decide) (by decide)
  refine ⟨by decide, by norm_num [List.chain'_cons], by decide, by decide, by decide, ?_⟩
  rw [h]
  decide

/-! ### Claim C6 — scene aggregation with placeholders -/

theorem foldl_aggStep_total :
    ∀ (scenes : List SceneInput) (st : List (List Frame) × ℕ),
      st.2 = (st.1.map List.length).sum →
      (scenes.foldl aggStep st).2
        = (((scenes.foldl aggStep st).1).map List.length).sum := by
  intro scenes
  induction scenes with
  | nil => intro st h; exact h
  | cons sc t ih =>
    intro st h
    rw [List.foldl_cons]
    apply ih
    cases sc with
    | npz depth =>
      simp only [aggStep, List.map_append, List.sum_append, h, List.map_cons,
        List.map_nil, List.sum_cons, List.sum_nil]
      omega
    | flatVideo k =>
      simp only [aggStep, List.map_append, List.sum_append, h, List.map_cons,
        List.map_nil, List.sum_cons, List.sum_nil, List.length_replicate]
      omega
    | missing => exact h

set_option maxRecDepth 4000 in
/-- C6 counterexample: scenes `[flat video (2 frames), npz with 2×2 frames,
flat video (1 frame)]`.  The placeholder for scene 3 is sized from
`all_depths[0]` — the scene-1 placeholder with the 308×728 defaults — not
from the most recently seen valid scene (dimensions 2×2), and the final
concatenation of mismatched shapes fails, so `create_depth_npz` returns
failure rather than never failing. -/
theorem create_depth_placeholder_cex :
    ((([SceneInput.flatVideo 2,
        SceneInput.npz [[[(1 : ℚ), 1], [1, 1]]],
        SceneInput.flatVideo 1]).foldl aggStep ([], 0)).1).length = 3
    ∧ arrDims (((([SceneInput.flatVideo 2,
        SceneInput.npz [[[(1 : ℚ), 1], [1, 1]]],
        SceneInput.flatVideo 1]).foldl aggStep ([], 0)).1).getD 2 []) = (308, 728)
    ∧ arrDims [[[(1 : ℚ), 1], [1, 1]]] = (2, 2)
    ∧ ((308, 728) : ℕ × ℕ) ≠ (2, 2)
    ∧ create_depth_npz [SceneInput.flatVideo 2,
        SceneInput.npz [[[(1 : ℚ), 1], [1, 1]]],
        SceneInput.flatVideo 1] = none := by
  decide

/-- C6 amended: a scene with no npz depth data but a readable depth video
is substituted with a constant `100.0` placeholder whose height and width
come from the first stored scene array — the 308×728 defaults when it is
itself the first — while a scene with no depth data at all is skipped and
contributes nothing; the per-scene loop itself never fails, the running
total frame count always equals the sum of the stored array lengths
(placeholders included), and when every stored array shares the same
height and width the final concatenation succeeds with exactly that many
frames. -/
theorem create_depth_aggregation (scenes : List SceneInput) :
    (scenes.foldl aggStep ([], 0)).2
      = (((scenes.foldl aggStep ([], 0)).1).map List.length).sum
    ∧ (∀ st : List (List Frame) × ℕ, aggStep st SceneInput.missing = st)
    ∧ (∀ (k tot : ℕ),
        (aggStep ([], tot) (SceneInput.flatVideo k)
          = ([List.replicate k (List.replicate 308 (List.replicate 728 (100 : ℚ)))],
             tot + k))
        ∧ ∀ (arr : List Frame) (rest : List (List Frame)),
            aggStep (arr :: rest, tot) (SceneInput.flatVideo k)
              = ((arr :: rest) ++ [List.replicate k (List.replicate (arrDims arr).1
                  (List.replicate (arrDims arr).2 (100 : ℚ)))], tot + k))
    ∧ ((scenes.foldl aggStep ([], 0)).1 ≠ [] →
        (∀ a ∈ (scenes.foldl aggStep ([], 0)).1,
          arrDims a = arrDims ((scenes.foldl aggStep ([], 0)).1.headD [])) →
        create_depth_npz scenes = some ((scenes.foldl aggStep ([], 0)).1.flatten)
        ∧ ((scenes.foldl aggStep ([], 0)).1.flatten).length
            = (scenes.foldl aggStep ([], 0)).2) := by
  refine ⟨foldl_aggStep_total scenes ([], 0) rfl, fun st => rfl,
    fun k tot => ⟨rfl, fun arr rest => rfl⟩, fun hne hdims => ⟨?_, ?_⟩⟩
  · unfold create_depth_npz npConcatenate
    rw [if_neg hne, if_pos]
    exact List.all_eq_true.mpr (fun a ha => decide_eq_true (hdims a ha))
  · rw [List.length_flatten, ← foldl_aggStep_total scenes ([], 0) rfl]

/-- Witness for `create_depth_aggregation`: a valid 1-frame 1×1 scene, a
fully missing scene, and a 2-frame flat-depth scene; the placeholder picks
up the 1×1 dimensions and the concatenation succeeds with 3 frames. -/
theorem create_depth_aggregation_witness :
    (([SceneInput.npz [[[(1 : ℚ)]]], SceneInput.missing,
        SceneInput.flatVideo 2]).foldl aggStep ([], 0)).1 ≠ []
    ∧ (∀ a ∈ (([SceneInput.npz [[[(1 : ℚ)]]], SceneInput.missing,
        SceneInput.flatVideo 2]).foldl aggStep ([], 0)).1,
        arrDims a = arrDims ((([SceneInput.npz [[[(1 : ℚ)]]], SceneInput.missing,
          SceneInput.flatVideo 2]).foldl aggStep ([], 0)).1.headD []))
    ∧ create_depth_npz [SceneInput.npz [[[(1 : ℚ)]]], SceneInput.missing,
        SceneInput.flatVideo 2]
        = some ((([SceneInput.npz [[[(1 : ℚ)]]], SceneInput.missing,
            SceneInput.flatVideo 2]).foldl aggStep ([], 0)).1.flatten)
    ∧ create_depth_npz [SceneInput.npz [[[(1 : ℚ)]]], SceneInput.missing,
        SceneInput.flatVideo 2] = some [[[1]], [[100]], [[100]]] := by
  have h := (create_depth_aggregation [SceneInput.npz [[[(1 : ℚ)]]], SceneInput.missing,
    SceneInput.flatVideo 2]).2.2.2 (by decide) (by decide)
  exact ⟨by decide, by decide, h.1, by decide⟩

end VDA
